import Mathlib

/-!
# Verification of the notter Note Store, Hierarchy Resolver, Backlink Resolver
# and Index Synchronization Coordinator

Shallow embedding of the core logic of `src-tauri/src/notes/mod.rs`,
`src-tauri/src/notes/subnotes.rs` and
`src-tauri/src/search/index/tantivy_index.rs`.

Strings are modelled as `List Char` (Rust `&str` char sequences) or as Lean
`String` where convenient; character classes (`is_alphabetic`, `is_numeric`,
`is_alphanumeric`, `is_whitespace`) are modelled by Lean's ASCII
`Char.isAlpha` / `Char.isDigit` / `Char.isAlphanum` / `Char.isWhitespace`,
which agree with the Rust Unicode classes on all ASCII inputs (every input in
the claims is ASCII). Bytes are `Nat` with an explicit `< 256` bound.
-/

set_option maxRecDepth 10000

namespace Notter

/-! ## Hierarchy Resolver (`src/notes/subnotes.rs`) -/

/-- `extract_prefix` from `subnotes.rs`: `title.split('-').next()` — the first
`'-'`-delimited segment, i.e. everything before the first `'-'` (the whole
title when no `'-'` is present).  Rust's `split` always yields at least one
(possibly empty) segment, so the `Option` is always `some`. -/
def extract_prefix (title : List Char) : Option (List Char) :=
  some (title.takeWhile (· ≠ '-'))

/-- The depth-counting loop of `is_subnote` in `subnotes.rs`: scan the suffix
left to right; every alphabetic character adds 1; a digit adds 1 and then the
remaining digits of the same maximal digit run are consumed without adding;
any other character adds nothing.  The Rust loop skips the rest of a digit
run with an inner `while chars.peek().is_numeric()` loop; here the same scan
is a single structural pass where the flag `inRun` records whether the
previous character was a digit still being skipped. -/
def subnoteDepthAux : Bool → List Char → Nat
  | _, [] => 0
  | inRun, c :: rest =>
    if c.isAlpha then 1 + subnoteDepthAux false rest
    else if c.isDigit then
      (if inRun then 0 else 1) + subnoteDepthAux true rest
    else subnoteDepthAux false rest

/-- Depth of a suffix in the Zettelkasten hierarchy (`is_subnote`'s loop). -/
def subnoteDepth (suffix : List Char) : Nat :=
  subnoteDepthAux false suffix

/-- `is_subnote` from `subnotes.rs`.  The candidate's first `'-'`-delimited
segment must start with `parentPrefix` and be strictly longer; when
`parentPrefix` ends in a digit the first character of the extra suffix must
be alphabetic; the returned depth is `subnoteDepth` of the extra suffix. -/
def is_subnote (title : List Char) (parentPrefix : Option (List Char)) : Option Nat :=
  match parentPrefix with
  | none => none
  | some parentPrefix =>
    let first_part := title.takeWhile (· ≠ '-')
    if parentPrefix.isPrefixOf first_part ∧ first_part.length > parentPrefix.length then
      let suffix := first_part.drop parentPrefix.length
      if Option.any Char.isDigit parentPrefix.getLast? ∧
          ¬ (Option.any Char.isAlpha suffix.head?) then
        none
      else
        some (subnoteDepth suffix)
    else
      none

/-- A component of a Zettelkasten prefix (`ZettelComponent` in `subnotes.rs`). -/
inductive ZettelComponent : Type
  | Number : Nat → ZettelComponent
  | Letter : Char → ZettelComponent
deriving DecidableEq, Repr

/-- The scanning loop of `parse_zettelkasten_parts` from `subnotes.rs`:
decompose a prefix into an alternating sequence of maximal digit runs
(parsed as `u32` numbers; a run whose value overflows `u32` is silently
dropped, as in the Rust `if let Ok(num)`) and single letters (lower-cased);
other characters are skipped.  The Rust loop
collects each maximal digit run into a string with an inner
`while chars.peek().is_numeric()` loop before parsing it; here the same scan
is a single structural pass whose accumulator holds the numeric value of the
digit run currently being read (`none` when not inside a run), emitted when
the run ends. -/
def parsePartsAux : Option Nat → List Char → List ZettelComponent
  | none, [] => []
  | some n, [] => if n < 2 ^ 32 then [ZettelComponent.Number n] else []
  | none, c :: rest =>
    if c.isDigit then parsePartsAux (some (c.toNat - '0'.toNat)) rest
    else if c.isAlpha then ZettelComponent.Letter c.toLower :: parsePartsAux none rest
    else parsePartsAux none rest
  | some n, c :: rest =>
    if c.isDigit then parsePartsAux (some (n * 10 + (c.toNat - '0'.toNat))) rest
    else
      (if n < 2 ^ 32 then [ZettelComponent.Number n] else []) ++
        (if c.isAlpha then ZettelComponent.Letter c.toLower :: parsePartsAux none rest
         else parsePartsAux none rest)

/-- `parse_zettelkasten_parts` from `subnotes.rs`. -/
def parse_zettelkasten_parts (prefix' : List Char) : List ZettelComponent :=
  parsePartsAux none prefix'

/-- `compare_zettelkasten_component` from `subnotes.rs`: numbers compare by
value, letters compare as characters, and a `Number` sorts strictly before a
`Letter`. -/
def compare_zettelkasten_component : ZettelComponent → ZettelComponent → Ordering
  | ZettelComponent.Number a, ZettelComponent.Number b => compare a b
  | ZettelComponent.Letter a, ZettelComponent.Letter b => compare a b
  | ZettelComponent.Number _, ZettelComponent.Letter _ => Ordering.lt
  | ZettelComponent.Letter _, ZettelComponent.Number _ => Ordering.gt

/-- The component-list comparison loop of `zettelkasten_compare`: compare
position by position; when one list runs out first, the shorter list sorts
first. -/
def zettelCompareParts : List ZettelComponent → List ZettelComponent → Ordering
  | [], [] => Ordering.eq
  | _ :: _, [] => Ordering.gt
  | [], _ :: _ => Ordering.lt
  | a :: as', b :: bs' =>
    match compare_zettelkasten_component a b with
    | Ordering.eq => zettelCompareParts as' bs'
    | c => c

/-- `zettelkasten_compare` from `subnotes.rs`. -/
def zettelkasten_compare (a b : List Char) : Ordering :=
  zettelCompareParts (parse_zettelkasten_parts a) (parse_zettelkasten_parts b)

/-- Stable insertion of one prefix into an already sorted list: `a` is placed
before the first element it compares strictly less than, hence after any
element it compares equal to (stability). -/
def zettelInsert (a : List Char) : List (List Char) → List (List Char)
  | [] => [a]
  | b :: rest =>
    if zettelkasten_compare a b = Ordering.lt then a :: b :: rest
    else b :: zettelInsert a rest

/-- The sort performed by `get_subnotes`: a stable sort by
`zettelkasten_compare` (Rust stable `sort_by`), modelled by stable insertion
sort: elements are inserted left to right, each landing after all elements
already placed that compare equal to it. -/
def zettelSort (l : List (List Char)) : List (List Char) :=
  l.foldl (fun acc a => zettelInsert a acc) []

/-! ## Note Store: lines, words and tag extraction (`src/notes/mod.rs`) -/

/-- Split on `'\n'`, keeping every (possibly empty) segment; always returns at
least one segment, like Rust `str::split('\n')`. -/
def splitNlAux (cur : List Char) : List Char → List (List Char)
  | [] => [cur.reverse]
  | c :: rest =>
    if c = '\n' then cur.reverse :: splitNlAux [] rest
    else splitNlAux (c :: cur) rest

/-- Strip one trailing `'\r'` (the `\r` of a `\r\n` line ending). -/
def stripCR (l : List Char) : List Char :=
  if l.getLast? = some '\r' then l.dropLast else l

/-- Rust `str::lines` (also the sequence produced by `BufRead::lines`): split
at `'\n'`, strip the `'\r'` of a `\r\n` ending from every line that had a
line ending, and do not produce a final empty line for a trailing newline. -/
def rustLines (content : List Char) : List (List Char) :=
  let segs := splitNlAux [] content
  let segs := segs.dropLast.map stripCR ++ [segs.getLastD []]
  if segs.getLast? = some [] then segs.dropLast else segs

/-- Rust `str::split_whitespace`: maximal runs of non-whitespace characters. -/
def splitWsAux (cur : List Char) : List Char → List (List Char)
  | [] => if cur.isEmpty then [] else [cur.reverse]
  | c :: rest =>
    if c.isWhitespace then
      if cur.isEmpty then splitWsAux [] rest
      else cur.reverse :: splitWsAux [] rest
    else splitWsAux (c :: cur) rest

/-- The whitespace-delimited words of a line. -/
def splitWords (line : List Char) : List (List Char) :=
  splitWsAux [] line

/-- Rust `trim_end_matches(|c| !c.is_alphanumeric())`: remove the maximal run
of trailing non-alphanumeric characters. -/
def trimEndNonAlnum (w : List Char) : List Char :=
  (w.reverse.dropWhile (fun c => !c.isAlphanum)).reverse

/-- One step of the tag-collection loop of `extract_tags` in `mod.rs`: a word
starting with `'#'` and longer than one character is stripped of its leading
`'#'` marker(s) (`trim_start_matches('#')`) and of trailing non-alphanumeric
punctuation; a non-empty result not already collected is appended. -/
def extractTagsStep (tags : List (List Char)) (word : List Char) : List (List Char) :=
  if word.head? = some '#' ∧ 1 < word.length then
    let tag := trimEndNonAlnum (word.dropWhile (· = '#'))
    if tag ≠ [] ∧ tag ∉ tags then tags ++ [tag] else tags
  else tags

/-- All whitespace-delimited words of a list of lines, in order. -/
def allWords (ls : List (List Char)) : List (List Char) :=
  (ls.map splitWords).flatten

/-- The tag-extraction loop of `extract_tags`, run over an explicit list of
lines (the Rust code iterates `content.lines()` and then
`line.split_whitespace()`, which is the fold of `extractTagsStep` over the
concatenation of the per-line word lists). -/
def extractTagsFromLines (ls : List (List Char)) : List (List Char) :=
  (allWords ls).foldl extractTagsStep []

/-- `extract_tags` from `mod.rs`. -/
def extract_tags (content : List Char) : List (List Char) :=
  extractTagsFromLines (rustLines content)

/-! ## Specification-side characterization of tag extraction -/

/-- The tag a single word contributes, if any: the word must start with `'#'`,
be longer than one character, and survive stripping of the marker and of
trailing non-alphanumeric punctuation. -/
def tagOfWord (word : List Char) : Option (List Char) :=
  if word.head? = some '#' ∧ 1 < word.length then
    let tag := trimEndNonAlnum (word.dropWhile (· = '#'))
    if tag ≠ [] then some tag else none
  else none

/-- Deduplication keeping the first occurrence of each element, in order. -/
def dedupFirst (l : List (List Char)) : List (List Char) :=
  l.foldl (fun acc x => if x ∈ acc then acc else acc ++ [x]) []

/-- The tag loop is the first-occurrence deduplication of the per-word tag
candidates (fold fusion). -/
theorem foldl_extractTagsStep_eq (ws : List (List Char)) :
    ∀ acc, ws.foldl extractTagsStep acc =
      (ws.filterMap tagOfWord).foldl (fun acc x => if x ∈ acc then acc else acc ++ [x]) acc := by
  induction ws with
  | nil => intro acc; rfl
  | cons w ws ih =>
    intro acc
    by_cases h1 : w.head? = some '#' ∧ 1 < w.length
    · by_cases h2 : trimEndNonAlnum (w.dropWhile (· = '#')) = []
      · simp only [List.foldl_cons, List.filterMap_cons, extractTagsStep, tagOfWord,
          if_pos h1, h2, ih]
        simp
      · simp only [List.foldl_cons, List.filterMap_cons, extractTagsStep, tagOfWord,
          if_pos h1, if_neg h2, ih]
        by_cases h3 : trimEndNonAlnum (w.dropWhile (· = '#')) ∈ acc
        · simp [h2, h3]
        · simp [h2, h3]
    · simp only [List.foldl_cons, List.filterMap_cons, extractTagsStep, tagOfWord,
        if_neg h1, ih]

/-- `extract_tags` equals first-occurrence deduplication of the tag
candidates of all words of the content. -/
theorem extract_tags_eq_dedupFirst (content : List Char) :
    extract_tags content = dedupFirst ((allWords (rustLines content)).filterMap tagOfWord) :=
  foldl_extractTagsStep_eq _ []

/-- Membership in a first-occurrence-dedup fold. -/
theorem mem_dedupFold (l : List (List Char)) :
    ∀ acc x, x ∈ l.foldl (fun acc x => if x ∈ acc then acc else acc ++ [x]) acc ↔
      x ∈ acc ∨ x ∈ l := by
  induction l with
  | nil => simp
  | cons a l ih =>
    intro acc x
    by_cases h : a ∈ acc
    · simp only [List.foldl_cons, if_pos h, ih, List.mem_cons]
      constructor
      · rintro (hx | hx)
        · exact Or.inl hx
        · exact Or.inr (Or.inr hx)
      · rintro (hx | rfl | hx)
        · exact Or.inl hx
        · exact Or.inl h
        · exact Or.inr hx
    · simp only [List.foldl_cons, if_neg h, ih, List.mem_append, List.mem_singleton,
        List.mem_cons]
      tauto

/-- A first-occurrence-dedup fold starting from a nodup accumulator has no
duplicates. -/
theorem nodup_dedupFold (l : List (List Char)) :
    ∀ acc, acc.Nodup → (l.foldl (fun acc x => if x ∈ acc then acc else acc ++ [x]) acc).Nodup := by
  induction l with
  | nil => intro acc h; exact h
  | cons a l ih =>
    intro acc h
    by_cases ha : a ∈ acc
    · simpa [List.foldl_cons, if_pos ha] using ih acc h
    · rw [List.foldl_cons, if_neg ha]
      refine ih _ ?_
      simp [List.nodup_append, h, ha]

/-! ## Note and NoteSummary (`read_note` / `get_note_summary` in `mod.rs`) -/

/-- `NoteType` from `mod.rs`. -/
inductive NoteType : Type
  | Markdown : NoteType
  | PlainText : NoteType
deriving DecidableEq, Repr

/-- Rust `str::trim`: remove leading and trailing whitespace. -/
def trimWs (l : List Char) : List Char :=
  ((l.dropWhile Char.isWhitespace).reverse.dropWhile Char.isWhitespace).reverse

/-- Markdown title extraction shared by `read_note` and `get_note_summary`:
the first line with leading `'#'` markers stripped and surrounding whitespace
trimmed, or `"Untitled Note"` when there is no first line. -/
def mdTitle (ls : List (List Char)) : List Char :=
  match ls.head? with
  | some line => trimWs (line.dropWhile (· = '#'))
  | none => "Untitled Note".toList

/-- `Note` from `mod.rs` (timestamps are abstracted to `Nat`, as both reading
paths copy the same file metadata verbatim). -/
structure Note : Type where
  id : List Char
  title : List Char
  content : List Char
  created : Nat
  modified : Nat
  tags : List (List Char)
  fileType : NoteType
  path : List Char
deriving DecidableEq, Repr

/-- `NoteSummary` from `mod.rs`. -/
structure NoteSummary : Type where
  id : List Char
  title : List Char
  created : Nat
  modified : Nat
  tags : List (List Char)
  fileType : NoteType
deriving DecidableEq, Repr

/-- `read_note` from `mod.rs`: full read.  `stem` is the file stem used as
the PlainText title (`path.file_stem()`), `id` the base64 identifier, and
`created`/`modified` the file-system timestamps. -/
def read_note (id stem : List Char) (fileType : NoteType) (content : List Char)
    (created modified : Nat) (path : List Char) : Note :=
  { id := id
    title := match fileType with
      | NoteType.Markdown => mdTitle (rustLines content)
      | NoteType.PlainText => stem
    content := content
    created := created
    modified := modified
    tags := extract_tags content
    fileType := fileType
    path := path }

/-- `get_note_summary` from `mod.rs`: the listing path reads at most the
first 50 lines of the file and derives title and tags from those lines only
(for Markdown it joins them with `'\n'` and calls `extract_tags`, which
re-splits into the same lines; for PlainText it concatenates each line plus
`'\n'`, which also re-splits into the same lines). -/
def get_note_summary (id stem : List Char) (fileType : NoteType) (content : List Char)
    (created modified : Nat) : NoteSummary :=
  let ls := (rustLines content).take 50
  { id := id
    title := match fileType with
      | NoteType.Markdown => mdTitle ls
      | NoteType.PlainText => stem
    created := created
    modified := modified
    tags := extractTagsFromLines ls
    fileType := fileType }

/-- The projection of a `Note` to a `NoteSummary` by dropping `content` and
`path` (the spec's definition of NoteSummary). -/
def noteToSummary (n : Note) : NoteSummary :=
  { id := n.id
    title := n.title
    created := n.created
    modified := n.modified
    tags := n.tags
    fileType := n.fileType }

/-! ## Backlink Resolver (`find_backlinks` / `file_contains_pattern` in `mod.rs`) -/

/-- Whether `pat` occurs as a contiguous sublist of `text`. -/
def containsSub (pat : List Char) : List Char → Bool
  | [] => pat.isEmpty
  | c :: rest => pat.isPrefixOf (c :: rest) || containsSub pat rest

/-- The wiki-link pattern built by `find_backlinks`:
`\[\[<regex-escaped title>\]\]`.  Since `regex::escape` makes the title
literal, matching the regex is exactly finding the literal character sequence
`[[title]]`. -/
def wikiPattern (title : List Char) : List Char :=
  '[' :: '[' :: (title ++ [']', ']'])

/-- The scanning loop of `file_contains_pattern` in `mod.rs`: read the file
line by line, keep a buffer of the last (up to) 5 lines, and after each line
test the buffer joined with `'\n'` against the pattern. -/
def fileContainsAux (pat : List Char) (buffer : List (List Char)) :
    List (List Char) → Bool
  | [] => false
  | l :: ls =>
    let buf := buffer ++ [l]
    let buf := if buf.length > 5 then buf.drop 1 else buf
    containsSub pat (List.intercalate ['\n'] buf) || fileContainsAux pat buf ls

/-- `file_contains_pattern` from `mod.rs`, with the file's lines given
explicitly (the code reads them through `BufRead::lines`). -/
def file_contains_pattern (lines : List (List Char)) (pat : List Char) : Bool :=
  fileContainsAux pat [] lines

/-- `find_backlinks` from `mod.rs`: the store's listing is modelled as a list
of summaries paired with the content of the note's file; a note is kept iff
its content matches the literal `[[title]]` pattern under the sliding-window
scan. -/
def find_backlinks (notes : List (NoteSummary × List Char)) (note_title : List Char) :
    List NoteSummary :=
  (notes.filter
      (fun n => file_contains_pattern (rustLines n.2) (wikiPattern note_title))).map
    Prod.fst

/-- A fixed sample summary used for concrete backlink checks. -/
def sampleSummary : NoteSummary :=
  { id := [], title := [], created := 0, modified := 0, tags := [],
    fileType := NoteType.Markdown }

/-! ## Note Store: rename (`rename_note` in `mod.rs`) -/

/-- A file path split into directory segments, file stem and optional
extension (the parts `rename_note` works with). -/
structure NPath : Type where
  dir : List (List Char)
  stem : List Char
  ext : Option (List Char)
deriving DecidableEq, Repr

/-- Errors surfaced by the store operations modelled here (`anyhow::bail!`
sites). -/
inductive StoreError : Type
  | Conflict : StoreError
  | InvalidTarget : StoreError
  | OutsideRoot : StoreError
deriving DecidableEq, Repr

/-- Rust `str::to_lowercase` (ASCII fragment). -/
def lowerStr (s : List Char) : List Char := s.map Char.toLower

/-- Effect of one `fs::rename` on the set of existing files: the source
disappears, the destination appears. -/
def applyRename (fs : List NPath) (src dst : NPath) : List NPath :=
  fs.erase src ++ [dst]

/-- `rename_note` from `mod.rs`, over a file system modelled as the list of
existing paths.  Returns the resulting file system, the new path and the
sequence of raw `fs::rename` operations performed; `timestamp` stands for
`chrono::Utc::now().timestamp()` in the temporary name.  The extension is
`current_path.extension().unwrap_or("txt")`, the target is the same
directory with the new name, a case-only difference (equal lower-cased
names, unequal names) bypasses the existence check and uses the two-step
rename through the `temp_rename_{timestamp}_{new_name}.{ext}` path, and any
other existing target fails with `Conflict` before any rename. -/
def rename_note (fs : List NPath) (cur : NPath) (new_name : List Char)
    (timestamp : List Char) :
    Except StoreError (List NPath × NPath × List (NPath × NPath)) :=
  let extension := cur.ext.getD "txt".toList
  let new_path : NPath := ⟨cur.dir, new_name, some extension⟩
  let current_name := cur.stem
  let case_only := lowerStr current_name = lowerStr new_name ∧ current_name ≠ new_name
  if new_path ∈ fs ∧ ¬ case_only then
    Except.error StoreError.Conflict
  else if case_only then
    let temp : NPath :=
      ⟨cur.dir, "temp_rename_".toList ++ timestamp ++ "_".toList ++ new_name, some extension⟩
    Except.ok (applyRename (applyRename fs cur temp) temp new_path, new_path,
      [(cur, temp), (temp, new_path)])
  else
    Except.ok (applyRename fs cur new_path, new_path, [(cur, new_path)])

/-! ## Note Store: move (`move_note` in `mod.rs`) -/

/-- A POSIX path component as produced by Rust `Path::components`. -/
inductive PathComp : Type
  | rootDir : PathComp
  | curDir : PathComp
  | parentDir : PathComp
  | normal : List Char → PathComp
deriving DecidableEq, Repr

/-- Split a path string at `'/'` into raw segments. -/
def splitSlashAux (cur : List Char) : List Char → List (List Char)
  | [] => [cur.reverse]
  | c :: rest =>
    if c = '/' then cur.reverse :: splitSlashAux [] rest
    else splitSlashAux (c :: cur) rest

/-- Rust `Path::components` on a POSIX path: a leading `'/'` yields
`RootDir`, empty segments (repeated or trailing slashes) are skipped, `"."`
is `CurDir`, `".."` is `ParentDir`, anything else is a `Normal` segment.
(Rust also normalizes away non-leading `"."` segments; `move_note` skips
`CurDir` anyway, so emitting them all is equivalent.) -/
def pathComponents (p : List Char) : List PathComp :=
  let comps := (splitSlashAux [] p).filterMap fun s =>
    if s = [] then none
    else if s = ".".toList then some PathComp.curDir
    else if s = "..".toList then some PathComp.parentDir
    else some (PathComp.normal s)
  if p.head? = some '/' then PathComp.rootDir :: comps else comps

/-- The normalization loop of `move_note`: `ParentDir` fails with
`"Invalid target path"`, `CurDir` is skipped, other components are pushed
(pushing `RootDir` makes the accumulated path absolute, as Rust
`PathBuf::push` does).  Returns `(isAbsolute, segments)` on success. -/
def normalizeComps : List PathComp → Except StoreError (Bool × List (List Char))
  | [] => Except.ok (false, [])
  | PathComp.parentDir :: _ => Except.error StoreError.InvalidTarget
  | PathComp.curDir :: rest => normalizeComps rest
  | PathComp.rootDir :: rest =>
    match normalizeComps rest with
    | Except.ok (_, segs) => Except.ok (true, segs)
    | e => e
  | PathComp.normal s :: rest =>
    match normalizeComps rest with
    | Except.ok (abs, segs) => Except.ok (abs, s :: segs)
    | e => e

/-- An absolute path as a list of segments (all paths `move_note` compares
live under the absolute `notes_dir`). -/
abbrev AbsPath := List (List Char)

/-- `move_note` from `mod.rs`, over a file system modelled as the list of
existing absolute paths.  `notes_dir` is the absolute notes directory,
`cur` the note's current absolute path.  The relative target is normalized
(rejecting any parent-directory component), joined to `notes_dir` (a
normalized absolute target replaces the join, as Rust `Path::join` does),
and rejected when the result does not start with `notes_dir`; then the same
exists/case-only/two-step logic as `rename_note` runs.  Returns the
resulting file system, the new path and the raw renames performed. -/
def move_note (fs : List AbsPath) (notes_dir : AbsPath) (cur : AbsPath)
    (new_relative_path : List Char) (timestamp : List Char) :
    Except StoreError (List AbsPath × AbsPath × List (AbsPath × AbsPath)) :=
  match normalizeComps (pathComponents new_relative_path) with
  | Except.error e => Except.error e
  | Except.ok (abs, segs) =>
    let new_path : AbsPath := if abs then segs else notes_dir ++ segs
    if ¬ notes_dir.isPrefixOf new_path then Except.error StoreError.OutsideRoot
    else
      let case_only := cur.map lowerStr = new_path.map lowerStr ∧ cur ≠ new_path
      if new_path ∈ fs ∧ ¬ case_only then Except.error StoreError.Conflict
      else if case_only then
        let file_name := new_path.getLastD []
        let parent := new_path.dropLast
        let temp : AbsPath :=
          parent ++ ["temp_move_".toList ++ timestamp ++ "_".toList ++ file_name]
        Except.ok ((fs.erase cur ++ [temp]).erase temp ++ [new_path], new_path,
          [(cur, temp), (temp, new_path)])
      else
        Except.ok (fs.erase cur ++ [new_path], new_path, [(cur, new_path)])

/-! ## Identifier codec (`path_to_id` / `get_note_path` in `mod.rs`)

The id is `base64::engine::general_purpose::STANDARD.encode` of the UTF-8
bytes of the path relative to the notes directory; decoding is
`STANDARD.decode` plus `String::from_utf8` validation.  Paths are modelled by
their UTF-8 byte sequences (`List Nat`, each `< 256`); on byte sequences that
come from actual strings the UTF-8 validation step is the identity, so the
codec itself is the standard base64 alphabet with `'='` padding and rejection
of non-canonical trailing bits (the `STANDARD` engine's configuration). -/

/-- The standard base64 alphabet. -/
def base64Table : List Char :=
  "ABCDEFGHIJKLMNOPQRSTUVWXYZabcdefghijklmnopqrstuvwxyz0123456789+/".toList

/-- Character for a 6-bit value. -/
def b64char (n : Nat) : Char := base64Table.getD n 'A'

/-- 6-bit value of an alphabet character (`none` for everything else,
including `'='`). -/
def b64val (c : Char) : Option Nat := base64Table.indexOf? c

/-- Standard base64 encoding with padding of a byte sequence (the work done
by `STANDARD.encode` inside `path_to_id`). -/
def b64encode : List Nat → List Char
  | [] => []
  | [a] => [b64char (a / 4), b64char (a % 4 * 16), '=', '=']
  | [a, b] => [b64char (a / 4), b64char (a % 4 * 16 + b / 16), b64char (b % 16 * 4), '=']
  | a :: b :: c :: rest =>
    b64char (a / 4) :: b64char (a % 4 * 16 + b / 16) :: b64char (b % 16 * 4 + c / 64) ::
      b64char (c % 64) :: b64encode rest

/-- Standard base64 decoding with required canonical padding (the work done
by `STANDARD.decode` inside `get_note_path`): the input must be a sequence of
4-character groups, `'='` padding may only close the final group, and
non-zero trailing bits are rejected. -/
def b64decode : List Char → Option (List Nat)
  | [] => some []
  | c1 :: c2 :: c3 :: c4 :: rest =>
    match b64val c1, b64val c2 with
    | some v1, some v2 =>
      if c3 = '=' then
        if c4 = '=' ∧ rest = [] ∧ v2 % 16 = 0 then some [v1 * 4 + v2 / 16] else none
      else
        match b64val c3 with
        | some v3 =>
          if c4 = '=' then
            if rest = [] ∧ v3 % 4 = 0 then
              some [v1 * 4 + v2 / 16, v2 % 16 * 16 + v3 / 4]
            else none
          else
            match b64val c4, b64decode rest with
            | some v4, some tail =>
              some ((v1 * 4 + v2 / 16) :: (v2 % 16 * 16 + v3 / 4) ::
                (v3 % 4 * 64 + v4) :: tail)
            | _, _ => none
        | none => none
    | _, _ => none
  | _ => none

/-- `path_to_id` from `mod.rs`: base64 of the relative path's bytes. -/
def path_to_id (relative_path : List Nat) : List Char :=
  b64encode relative_path

/-- The decoding step of `get_note_path` from `mod.rs` (base64 decode plus
UTF-8 validation, which at the byte level of an actually-encoded path is the
identity); the subsequent existence check is not part of the codec. -/
def get_note_path_bytes (id : List Char) : Option (List Nat) :=
  b64decode id

/-- Alphabet lookups invert each other on 6-bit values. -/
theorem b64val_b64char {n : Nat} (h : n < 64) : b64val (b64char n) = some n := by
  have : ∀ m, m < 64 → b64val (b64char m) = some m := by decide
  exact this n h

/-- Alphabet characters are never the padding character. -/
theorem b64char_ne_pad {n : Nat} (h : n < 64) : b64char n ≠ '=' := by
  have : ∀ m, m < 64 → b64char m ≠ '=' := by decide
  exact this n h

/-- Decoding inverts encoding on byte sequences. -/
theorem b64decode_b64encode : ∀ (bs : List Nat), (∀ x ∈ bs, x < 256) →
    b64decode (b64encode bs) = some bs
  | [], _ => rfl
  | [a], h => by
    have ha : a < 256 := h a (by simp)
    have h1 : b64val (b64char (a / 4)) = some (a / 4) := b64val_b64char (by omega)
    have h2 : b64val (b64char (a % 4 * 16)) = some (a % 4 * 16) := b64val_b64char (by omega)
    simp [b64encode, b64decode, h1, h2, Nat.mul_mod_left]
    omega
  | [a, b], h => by
    have ha : a < 256 := h a (by simp)
    have hb : b < 256 := h b (by simp)
    have h1 : b64val (b64char (a / 4)) = some (a / 4) := b64val_b64char (by omega)
    have h2 : b64val (b64char (a % 4 * 16 + b / 16)) = some (a % 4 * 16 + b / 16) :=
      b64val_b64char (by omega)
    have h3 : b64val (b64char (b % 16 * 4)) = some (b % 16 * 4) := b64val_b64char (by omega)
    have h3ne : b64char (b % 16 * 4) ≠ '=' := b64char_ne_pad (by omega)
    simp [b64encode, b64decode, h1, h2, h3, h3ne, Nat.mul_mod_left]
    omega
  | a :: b :: c :: rest, h => by
    have ha : a < 256 := h a (by simp)
    have hb : b < 256 := h b (by simp)
    have hc : c < 256 := h c (by simp)
    have hrest : ∀ x ∈ rest, x < 256 := fun x hx => h x (by simp [hx])
    have h1 : b64val (b64char (a / 4)) = some (a / 4) := b64val_b64char (by omega)
    have h2 : b64val (b64char (a % 4 * 16 + b / 16)) = some (a % 4 * 16 + b / 16) :=
      b64val_b64char (by omega)
    have h3 : b64val (b64char (b % 16 * 4 + c / 64)) = some (b % 16 * 4 + c / 64) :=
      b64val_b64char (by omega)
    have h4 : b64val (b64char (c % 64)) = some (c % 64) := b64val_b64char (by omega)
    have h3ne : b64char (b % 16 * 4 + c / 64) ≠ '=' := b64char_ne_pad (by omega)
    have h4ne : b64char (c % 64) ≠ '=' := b64char_ne_pad (by omega)
    have ih := b64decode_b64encode rest hrest
    simp [b64encode, b64decode, h1, h2, h3, h4, h3ne, h4ne, ih]
    omega

/-- C1: for every byte sequence of a path under the store root, decoding the
identifier produced by encoding yields the path again, and re-encoding the
decoded path of a stored note's identifier (an identifier produced by
`path_to_id`) yields the identifier again. -/
theorem claim_C1_id_codec :
    ∀ p : List Nat, (∀ x ∈ p, x < 256) →
      get_note_path_bytes (path_to_id p) = some p ∧
      Option.map path_to_id (get_note_path_bytes (path_to_id p)) = some (path_to_id p) := by
  intro p hp
  have h := b64decode_b64encode p hp
  exact ⟨h, by rw [get_note_path_bytes, path_to_id, h]; rfl⟩

/-- Witness for C1 at the byte sequence of the path `"a.md"`. -/
theorem claim_C1_id_codec_witness :
    get_note_path_bytes (path_to_id [97, 46, 109, 100]) = some [97, 46, 109, 100] ∧
      Option.map path_to_id (get_note_path_bytes (path_to_id [97, 46, 109, 100])) =
        some (path_to_id [97, 46, 109, 100]) :=
  claim_C1_id_codec [97, 46, 109, 100] (by decide)

/-! ## Index Synchronization Coordinator: full rebuild
(`rebuild_index` / `copy_dir_all` in `search/index/tantivy_index.rs`)

`rebuild_index` first builds and commits a brand-new index in a temporary
directory (touching neither the canonical index location `index_path` nor
the backup location `index_path.bak`); then it manipulates the two
locations: if the canonical index exists, a stale backup is removed and the
canonical directory is *renamed* to the backup path; the canonical directory
is re-created empty; the temporary index is *copied in file by file*
(`copy_dir_all` uses `fs::copy` per entry, not a rename); finally the backup
is removed if present.  The model records the canonical and backup locations
as optional lists of directory entries and the post-temp-build phase as a
script of primitive file-system operations; a failure after `n` operations
leaves the state `runPartial` produces (the temp-build phase corresponds to
`n = 0`, since it performs no operation on either location). -/

/-- Contents of the canonical and backup index locations (`none` = the
directory does not exist; the list holds the directory's entries). -/
structure IndexFS : Type where
  canonical : Option (List Nat)
  backup : Option (List Nat)
deriving DecidableEq, Repr

/-- The primitive operations `rebuild_index` performs on the canonical and
backup locations, in program order. -/
inductive FSOp : Type
  | removeBackup : FSOp
  | renameCanonicalToBackup : FSOp
  | createCanonicalDir : FSOp
  | copyEntry : Nat → FSOp
deriving DecidableEq, Repr

/-- Effect of one operation. `create_dir_all` is a no-op on an existing
directory; `fs::copy` adds one entry to the canonical directory. -/
def applyOp (fs : IndexFS) : FSOp → IndexFS
  | FSOp.removeBackup => { fs with backup := none }
  | FSOp.renameCanonicalToBackup => { canonical := none, backup := fs.canonical }
  | FSOp.createCanonicalDir => { fs with canonical := some (fs.canonical.getD []) }
  | FSOp.copyEntry e => { fs with canonical := some (fs.canonical.getD [] ++ [e]) }

/-- The operation sequence of `rebuild_index` after the temporary index has
been built and committed: move the existing canonical index aside (removing
a stale backup first), re-create the canonical directory, copy the new
index's entries in one by one, and finally remove the backup if one exists
at that point (it does iff the canonical index existed — it was renamed
there — or a stale backup existed and was never removed). -/
def rebuildScript (fs : IndexFS) (newEntries : List Nat) : List FSOp :=
  (if fs.canonical.isSome then
      (if fs.backup.isSome then [FSOp.removeBackup] else []) ++
        [FSOp.renameCanonicalToBackup]
    else []) ++
  [FSOp.createCanonicalDir] ++ newEntries.map FSOp.copyEntry ++
  (if fs.canonical.isSome ∨ fs.backup.isSome then [FSOp.removeBackup] else [])

/-- Run a whole operation sequence. -/
def runScript (fs : IndexFS) (ops : List FSOp) : IndexFS :=
  ops.foldl applyOp fs

/-- Run the first `n` operations of a sequence: the state in which a failure
of operation `n + 1` (or of the whole rebuild after only `n` operations)
leaves the two index locations. -/
def runPartial (fs : IndexFS) : List FSOp → Nat → IndexFS
  | _, 0 => fs
  | [], _ => fs
  | op :: ops, n + 1 => runPartial (applyOp fs op) ops n

/-- `rebuild_index` from `tantivy_index.rs` when every step succeeds. -/
def rebuild_index (fs : IndexFS) (newEntries : List Nat) : IndexFS :=
  runScript fs (rebuildScript fs newEntries)

/-! ## Specification-side characterization of the depth count -/

/-- Number of maximal digit runs in a string, the flag recording whether the
previous character was a digit (so a digit directly after a digit does not
start a new run). -/
def digitRunsAux : Bool → List Char → Nat
  | _, [] => 0
  | prev, c :: rest =>
    if c.isDigit then (if prev then 0 else 1) + digitRunsAux true rest
    else digitRunsAux false rest

/-- Number of maximal digit runs in a string. -/
def digitRuns (s : List Char) : Nat := digitRunsAux false s

/-- An ASCII alphabetic character is not a digit. -/
theorem isDigit_eq_false_of_isAlpha {c : Char} (h : c.isAlpha = true) :
    c.isDigit = false := by
  revert h
  unfold Char.isAlpha Char.isUpper Char.isLower Char.isDigit
  simp only [Bool.or_eq_true, Bool.and_eq_true, decide_eq_true_eq, Bool.and_eq_false_iff,
    decide_eq_false_iff_not, not_le, Char.le_def, UInt32.le_def, BitVec.le_def]
  intro h
  have e65 : (UInt32.toBitVec 65).toNat = 65 := rfl
  have e90 : (UInt32.toBitVec 90).toNat = 90 := rfl
  have e97 : (UInt32.toBitVec 97).toNat = 97 := rfl
  have e122 : (UInt32.toBitVec 122).toNat = 122 := rfl
  have e48 : (UInt32.toBitVec 48).toNat = 48 := rfl
  have e57 : (UInt32.toBitVec 57).toNat = 57 := rfl
  omega

/-- The depth loop of `is_subnote` computes exactly: one per alphabetic
character plus one per maximal digit run. -/
theorem subnoteDepthAux_eq (s : List Char) :
    ∀ b, subnoteDepthAux b s = (s.filter Char.isAlpha).length + digitRunsAux b s := by
  induction s with
  | nil => intro b; rfl
  | cons c rest ih =>
    intro b
    by_cases ha : c.isAlpha = true
    · have hd : c.isDigit = false := isDigit_eq_false_of_isAlpha ha
      simp [subnoteDepthAux, digitRunsAux, ha, hd, ih, List.filter]
      omega
    · by_cases hd : c.isDigit = true
      · simp [subnoteDepthAux, digitRunsAux, ha, hd, ih, List.filter]
        omega
      · simp [subnoteDepthAux, digitRunsAux, ha, hd, ih, List.filter]

/-- The depth of a suffix equals its alphabetic-character count plus its
maximal-digit-run count. -/
theorem subnoteDepth_eq (s : List Char) :
    subnoteDepth s = (s.filter Char.isAlpha).length + digitRuns s :=
  subnoteDepthAux_eq s false

/-- Every Zettelkasten component compares equal to itself. -/
theorem compare_zettelkasten_component_self (a : ZettelComponent) :
    compare_zettelkasten_component a a = Ordering.eq := by
  cases a <;> simp [compare_zettelkasten_component, Nat.compare_eq_eq, compare,
    compareOfLessAndEq]

/-- A strictly shorter component list that is a prefix of another sorts
strictly before it. -/
theorem zettelCompareParts_of_prefix (ps qs : List ZettelComponent)
    (hpre : ps <+: qs) (hlen : ps.length < qs.length) :
    zettelCompareParts ps qs = Ordering.lt := by
  induction ps generalizing qs with
  | nil =>
    cases qs with
    | nil => simp at hlen
    | cons b bs => rfl
  | cons a as ih =>
    cases qs with
    | nil => simp at hlen
    | cons b bs =>
      obtain ⟨t, ht⟩ := hpre
      injection ht with h1 h2
      subst h1
      have hpre' : as <+: bs := ⟨t, h2⟩
      have hlen' : as.length < bs.length := by
        simpa using Nat.lt_of_succ_lt_succ hlen
      simp [zettelCompareParts, compare_zettelkasten_component_self, ih bs hpre' hlen']

/-- C5: `is_subnote(candidate, parentPrefix)` returns `Some depth` iff the
candidate's first `'-'`-delimited segment strictly extends `parentPrefix`
(subject to the boundary rule that a parent ending in a digit must be
extended by a letter first), with depth = one per alphabetic character plus
one per maximal digit run in the extra suffix; together with the five
concrete examples from the spec. -/
theorem claim_C5_is_subnote :
    (∀ (title parent : List Char) (d : Nat),
      is_subnote title (some parent) = some d ↔
        (parent <+: title.takeWhile (· ≠ '-') ∧
         parent.length < (title.takeWhile (· ≠ '-')).length ∧
         (Option.any Char.isDigit parent.getLast? = true →
           Option.any Char.isAlpha
             ((title.takeWhile (· ≠ '-')).drop parent.length).head? = true) ∧
         d = (((title.takeWhile (· ≠ '-')).drop parent.length).filter Char.isAlpha).length +
               digitRuns ((title.takeWhile (· ≠ '-')).drop parent.length))) ∧
    is_subnote "1a-title".toList (some "1".toList) = some 1 ∧
    is_subnote "1a1-title".toList (some "1".toList) = some 2 ∧
    is_subnote "1a1-title".toList (some "1a".toList) = some 1 ∧
    is_subnote "10-title".toList (some "1".toList) = none ∧
    is_subnote "10a-title".toList (some "10".toList) = some 1 := by
  refine ⟨?_, by decide, by decide, by decide, by decide, by decide⟩
  intro title parent d
  by_cases h1 : parent.isPrefixOf (title.takeWhile (· ≠ '-')) = true ∧
      (title.takeWhile (· ≠ '-')).length > parent.length
  · by_cases h2 : Option.any Char.isDigit parent.getLast? = true ∧
        ¬ (Option.any Char.isAlpha
            ((title.takeWhile (· ≠ '-')).drop parent.length).head? = true)
    · simp only [is_subnote, if_pos h1, if_pos h2]
      constructor
      · intro h; exact absurd h (by simp)
      · rintro ⟨-, -, himp, -⟩
        exact absurd (himp h2.1) h2.2
    · simp only [is_subnote, if_pos h1, if_neg h2, Option.some_inj]
      rw [List.isPrefixOf_iff_prefix] at h1
      constructor
      · intro h
        refine ⟨h1.1, h1.2, fun hd => ?_, by rw [← h, subnoteDepth_eq]⟩
        by_contra hna
        exact h2 ⟨hd, hna⟩
      · rintro ⟨-, -, -, hd⟩
        rw [hd, subnoteDepth_eq]
  · simp only [is_subnote, if_neg h1]
    rw [List.isPrefixOf_iff_prefix] at h1
    constructor
    · intro h; exact absurd h (by simp)
    · rintro ⟨hp, hl, -, -⟩
      exact absurd ⟨hp, hl⟩ h1

/-- Witness for C5 at a concrete input. -/
theorem claim_C5_is_subnote_witness :
    is_subnote "1a1-title".toList (some "1".toList) = some 2 :=
  (claim_C5_is_subnote.1 "1a1-title".toList "1".toList 2).mpr (by decide)

/-- C6: the hierarchy comparator compares numbers by value, letters as
characters, orders a Number strictly before a Letter, orders a strictly
shorter component sequence before a longer one it is a prefix of, and sorts
the spec's six-prefix set into the stated order. -/
theorem claim_C6_zettelkasten_order :
    (∀ m n : Nat,
      compare_zettelkasten_component (ZettelComponent.Number m) (ZettelComponent.Number n) =
        compare m n) ∧
    (∀ a b : Char,
      compare_zettelkasten_component (ZettelComponent.Letter a) (ZettelComponent.Letter b) =
        compare a b) ∧
    (∀ (n : Nat) (c : Char),
      compare_zettelkasten_component (ZettelComponent.Number n) (ZettelComponent.Letter c) =
          Ordering.lt ∧
      compare_zettelkasten_component (ZettelComponent.Letter c) (ZettelComponent.Number n) =
          Ordering.gt) ∧
    (∀ ps qs : List ZettelComponent, ps <+: qs → ps.length < qs.length →
      zettelCompareParts ps qs = Ordering.lt) ∧
    zettelSort ["1b".toList, "1a2".toList, "1a".toList, "1a1".toList, "1c".toList,
        "1a10".toList] =
      ["1a".toList, "1a1".toList, "1a2".toList, "1a10".toList, "1b".toList, "1c".toList] := by
  exact ⟨fun _ _ => rfl, fun _ _ => rfl, fun _ _ => ⟨rfl, rfl⟩,
    zettelCompareParts_of_prefix, by decide⟩

/-- C3 counterexample: on the spec's own example content the extracted tags
are not `["world", "foo", "a"]` — `"#foo-bar"` keeps its hyphen because only
a maximal run of *trailing* non-alphanumeric characters is trimmed, and
`'r'` is alphanumeric, so nothing is trimmed from `"foo-bar"`. -/
theorem claim_C3_counterexample :
    extract_tags "Hello #world! #foo-bar #a".toList ≠
      ["world".toList, "foo".toList, "a".toList] := by decide

/-- C3 (amended): tag extraction keeps exactly the whitespace-delimited words
that begin with `'#'` and remain non-empty after stripping the marker and
trailing non-alphanumeric punctuation, case-sensitively deduplicated in order
of first appearance; the content `"Hello #world! #foo-bar #a"` yields exactly
`["world", "foo-bar", "a"]` in that order. -/
theorem claim_C3_extract_tags :
    (∀ (content t : List Char),
      t ∈ extract_tags content ↔
        ∃ w ∈ allWords (rustLines content), tagOfWord w = some t) ∧
    (∀ content : List Char, (extract_tags content).Nodup) ∧
    (∀ content : List Char,
      extract_tags content =
        dedupFirst ((allWords (rustLines content)).filterMap tagOfWord)) ∧
    extract_tags "Hello #world! #foo-bar #a".toList =
      ["world".toList, "foo-bar".toList, "a".toList] := by
  refine ⟨?_, ?_, ?_, by decide⟩
  · intro content t
    rw [extract_tags_eq_dedupFirst, dedupFirst, mem_dedupFold]
    simp [List.mem_filterMap]
  · intro content
    rw [extract_tags_eq_dedupFirst, dedupFirst]
    exact nodup_dedupFold _ _ List.nodup_nil
  · intro content
    exact extract_tags_eq_dedupFirst content

/-- The head of the first 50 elements is the head. -/
theorem head?_take50 {α : Type} (l : List α) : (l.take 50).head? = l.head? := by
  cases l <;> simp

/-- Content whose 51st line holds the only tag: the listing path misses it. -/
def c4content : List Char :=
  (List.replicate 50 ['x', '\n']).flatten ++ "#late".toList

/-- C4 counterexample: for a Markdown file whose only tag sits on line 51,
the listing summary (which reads at most 50 lines) has no tags while the full
note read has `["late"]`, so the summary is not the projection of the note. -/
theorem claim_C4_counterexample :
    get_note_summary [] [] NoteType.Markdown c4content 0 0 ≠
      noteToSummary (read_note [] [] NoteType.Markdown c4content 0 0 []) := by
  decide

/-- C4 (amended): the summary's title always coincides with the full note's
title, and whenever the content has at most 50 lines the NoteSummary produced
by the listing path equals the projection of the full Note obtained by
dropping `content` and `path`; tags appearing only after line 50 are missed
by the summary. -/
theorem claim_C4_summary_projection :
    ∀ (id stem : List Char) (ft : NoteType) (content : List Char)
      (created modified : Nat) (path : List Char),
      (get_note_summary id stem ft content created modified).title =
        (read_note id stem ft content created modified path).title ∧
      ((rustLines content).length ≤ 50 →
        get_note_summary id stem ft content created modified =
          noteToSummary (read_note id stem ft content created modified path)) := by
  intro id stem ft content created modified path
  constructor
  · cases ft with
    | Markdown =>
      simp only [get_note_summary, read_note, mdTitle, head?_take50]
    | PlainText => rfl
  · intro h
    have htake : (rustLines content).take 50 = rustLines content :=
      List.take_of_length_le h
    cases ft <;>
      simp [get_note_summary, read_note, noteToSummary, extract_tags, htake]

/-- Witness for C4 at a concrete input with fewer than 50 lines. -/
theorem claim_C4_summary_projection_witness :
    get_note_summary [] [] NoteType.Markdown "hi #t".toList 0 0 =
      noteToSummary (read_note [] [] NoteType.Markdown "hi #t".toList 0 0 []) :=
  (claim_C4_summary_projection [] [] NoteType.Markdown "hi #t".toList 0 0 []).2 (by decide)

/-- C9: `find_backlinks(title)` returns exactly the notes whose content,
scanned line by line under a sliding window of the last 5 lines joined with
newlines, at some point contains the literal text `[[title]]`; a note
containing `"See [[Other Note]] for details"` is returned for the title
`"Other Note"`, a note mentioning `"Other Note"` without double brackets is
not, and the title is matched literally (a `'.'` in the title does not match
an arbitrary character). -/
theorem claim_C9_find_backlinks :
    (∀ (notes : List (NoteSummary × List Char)) (title : List Char) (s : NoteSummary),
      s ∈ find_backlinks notes title ↔
        ∃ content, (s, content) ∈ notes ∧
          file_contains_pattern (rustLines content) (wikiPattern title) = true) ∧
    (find_backlinks [(sampleSummary, "See [[Other Note]] for details".toList)]
        "Other Note".toList = [sampleSummary] ∧
      find_backlinks [(sampleSummary, "This mentions Other Note without brackets".toList)]
        "Other Note".toList = [] ∧
      find_backlinks [(sampleSummary, "See [[OtherXNote]] here".toList)]
        "Other.Note".toList = []) := by
  constructor
  · intro notes title s
    simp only [find_backlinks, List.mem_map, List.mem_filter]
    constructor
    · rintro ⟨⟨s', content⟩, ⟨hmem, hpat⟩, rfl⟩
      exact ⟨content, hmem, hpat⟩
    · rintro ⟨content, hmem, hpat⟩
      exact ⟨(s, content), ⟨hmem, hpat⟩, rfl⟩
  · exact ⟨by decide, by decide, by decide⟩

/-- If a component list contains a parent-directory component, normalization
fails with the `"Invalid target path"` error. -/
theorem normalizeComps_error_of_parentDir (comps : List PathComp)
    (h : PathComp.parentDir ∈ comps) :
    normalizeComps comps = Except.error StoreError.InvalidTarget := by
  induction comps with
  | nil => simp at h
  | cons c rest ih =>
    cases c with
    | rootDir =>
      have hr : PathComp.parentDir ∈ rest := by
        rcases List.mem_cons.mp h with h' | h'
        · exact absurd h' (by simp)
        · exact h'
      simp [normalizeComps, ih hr]
    | curDir =>
      have hr : PathComp.parentDir ∈ rest := by
        rcases List.mem_cons.mp h with h' | h'
        · exact absurd h' (by simp)
        · exact h'
      simp [normalizeComps, ih hr]
    | parentDir => rfl
    | normal s =>
      have hr : PathComp.parentDir ∈ rest := by
        rcases List.mem_cons.mp h with h' | h'
        · exact absurd h' (by simp)
        · exact h'
      simp [normalizeComps, ih hr]

/-- C7: a successful rename keeps the original extension and stays in the
same directory; a case-only difference succeeds through the two-step rename
via a temporary path distinct from both the source and the target; any other
target that already exists fails with `Conflict` (before any rename is
performed — the error is raised ahead of every `fs::rename` call). -/
theorem claim_C7_rename :
    ∀ (fs : List NPath) (cur : NPath) (new_name timestamp : List Char),
      (∀ fs' p tr, rename_note fs cur new_name timestamp = Except.ok (fs', p, tr) →
        p.dir = cur.dir ∧ ∀ e, cur.ext = some e → p.ext = some e) ∧
      (lowerStr cur.stem = lowerStr new_name → cur.stem ≠ new_name →
        ∃ fs',
          rename_note fs cur new_name timestamp =
            Except.ok (fs',
              (⟨cur.dir, new_name, some (cur.ext.getD "txt".toList)⟩ : NPath),
              [(cur,
                ⟨cur.dir, "temp_rename_".toList ++ timestamp ++ "_".toList ++ new_name,
                  some (cur.ext.getD "txt".toList)⟩),
               (⟨cur.dir, "temp_rename_".toList ++ timestamp ++ "_".toList ++ new_name,
                  some (cur.ext.getD "txt".toList)⟩,
                ⟨cur.dir, new_name, some (cur.ext.getD "txt".toList)⟩)]) ∧
          (⟨cur.dir, "temp_rename_".toList ++ timestamp ++ "_".toList ++ new_name,
              some (cur.ext.getD "txt".toList)⟩ : NPath) ≠ cur ∧
          (⟨cur.dir, "temp_rename_".toList ++ timestamp ++ "_".toList ++ new_name,
              some (cur.ext.getD "txt".toList)⟩ : NPath) ≠
            ⟨cur.dir, new_name, some (cur.ext.getD "txt".toList)⟩) ∧
      ((⟨cur.dir, new_name, some (cur.ext.getD "txt".toList)⟩ : NPath) ∈ fs →
        ¬ (lowerStr cur.stem = lowerStr new_name ∧ cur.stem ≠ new_name) →
        rename_note fs cur new_name timestamp = Except.error StoreError.Conflict) := by
  intro fs cur new_name timestamp
  refine ⟨?_, ?_, ?_⟩
  · intro fs' p tr h
    rw [rename_note] at h
    split_ifs at h with h1 h2
    · injection h with h
      injection h with _ h
      injection h with hp _
      subst hp
      exact ⟨rfl, fun e he => by simp [he]⟩
    · injection h with h
      injection h with _ h
      injection h with hp _
      subst hp
      exact ⟨rfl, fun e he => by simp [he]⟩
  · intro hlow hne
    have hco : lowerStr cur.stem = lowerStr new_name ∧ cur.stem ≠ new_name := ⟨hlow, hne⟩
    refine ⟨applyRename
        (applyRename fs cur
          ⟨cur.dir, "temp_rename_".toList ++ timestamp ++ "_".toList ++ new_name,
            some (cur.ext.getD "txt".toList)⟩)
        ⟨cur.dir, "temp_rename_".toList ++ timestamp ++ "_".toList ++ new_name,
          some (cur.ext.getD "txt".toList)⟩
        ⟨cur.dir, new_name, some (cur.ext.getD "txt".toList)⟩, ?_, ?_, ?_⟩
    · rw [rename_note]
      rw [if_neg (by simp [hco]), if_pos hco]
    · intro hEq
      have hstem := congrArg NPath.stem hEq
      have hlen := congrArg List.length hstem
      have hcl : cur.stem.length = new_name.length := by
        have := congrArg List.length hlow
        simpa [lowerStr] using this
      simp at hlen
      omega
    · intro hEq
      have hstem := congrArg NPath.stem hEq
      have hlen := congrArg List.length hstem
      simp at hlen
      omega
  · intro hmem hnco
    rw [rename_note, if_pos ⟨hmem, hnco⟩]

/-- Witness for C7 at a concrete input (existing non-case-only target). -/
theorem claim_C7_rename_witness :
    rename_note
        [(⟨[], "a".toList, some "md".toList⟩ : NPath), ⟨[], "b".toList, some "md".toList⟩]
        ⟨[], "a".toList, some "md".toList⟩ "b".toList "0".toList =
      Except.error StoreError.Conflict :=
  (claim_C7_rename
      [⟨[], "a".toList, some "md".toList⟩, ⟨[], "b".toList, some "md".toList⟩]
      ⟨[], "a".toList, some "md".toList⟩ "b".toList "0".toList).2.2
    (by decide) (by decide)

/-- C10: renaming a note (which always has an extension) to its current file
stem fails with `Conflict`: the target path is the note's own existing path,
and the case-only exception requires the two names to differ. -/
theorem claim_C10_rename_self_conflict :
    ∀ (fs : List NPath) (cur : NPath) (e timestamp : List Char),
      cur ∈ fs → cur.ext = some e →
      rename_note fs cur cur.stem timestamp = Except.error StoreError.Conflict := by
  intro fs cur e timestamp hmem hext
  have hcur : (⟨cur.dir, cur.stem, some (cur.ext.getD "txt".toList)⟩ : NPath) = cur := by
    cases cur
    simp_all
  rw [rename_note, if_pos]
  constructor
  · rw [hcur]; exact hmem
  · rintro ⟨-, hne⟩
    exact hne rfl

/-- Witness for C10 at a concrete input. -/
theorem claim_C10_rename_self_conflict_witness :
    rename_note [(⟨[], "note".toList, some "md".toList⟩ : NPath)]
        ⟨[], "note".toList, some "md".toList⟩ "note".toList "0".toList =
      Except.error StoreError.Conflict :=
  claim_C10_rename_self_conflict [⟨[], "note".toList, some "md".toList⟩]
    ⟨[], "note".toList, some "md".toList⟩ "md".toList "0".toList (by decide) rfl

/-- C8: a move target containing a parent-directory traversal component is
rejected with the `"Invalid target path"` error, and a target that
normalizes to an absolute location outside the store root is rejected with
the `"Target path is outside notes directory"` error; both checks run before
any `fs::rename`, so the note file is not relocated. -/
theorem claim_C8_move_rejects_traversal :
    ∀ (fs : List AbsPath) (notes_dir cur : AbsPath) (rel timestamp : List Char),
      (PathComp.parentDir ∈ pathComponents rel →
        move_note fs notes_dir cur rel timestamp = Except.error StoreError.InvalidTarget) ∧
      (∀ segs, normalizeComps (pathComponents rel) = Except.ok (true, segs) →
        ¬ notes_dir.isPrefixOf segs = true →
        move_note fs notes_dir cur rel timestamp = Except.error StoreError.OutsideRoot) := by
  intro fs notes_dir cur rel timestamp
  constructor
  · intro h
    rw [move_note, normalizeComps_error_of_parentDir _ h]
  · intro segs hnorm hout
    rw [move_note, hnorm]
    simp only [if_true]
    rw [if_pos hout]

/-- Witness for C8 at concrete inputs (a traversal component). -/
theorem claim_C8_move_rejects_traversal_witness :
    move_note [] ["notes".toList] [] "../escape.md".toList [] =
      Except.error StoreError.InvalidTarget :=
  (claim_C8_move_rejects_traversal [] ["notes".toList] [] "../escape.md".toList []).1
    (by decide)

/-- Running the copy phase to completion appends all entries to the
canonical directory and touches nothing else. -/
theorem runScript_copies (l : List Nat) :
    ∀ (acc : List Nat) (bk : Option (List Nat)),
      runScript ⟨some acc, bk⟩ (l.map FSOp.copyEntry) = ⟨some (acc ++ l), bk⟩ := by
  induction l with
  | nil => intro acc bk; simp [runScript]
  | cons e l ih =>
    intro acc bk
    simp only [List.map_cons, runScript, List.foldl_cons, applyOp, Option.getD_some]
    rw [show (List.foldl applyOp ⟨some (acc ++ [e]), bk⟩ (l.map FSOp.copyEntry)) =
      runScript ⟨some (acc ++ [e]), bk⟩ (l.map FSOp.copyEntry) from rfl, ih]
    simp

/-- During the copy phase followed by the backup removal, either the backup
still holds its contents or the canonical directory holds the complete new
index. -/
theorem runPartial_copyFinal (l : List Nat) :
    ∀ (m : Nat) (acc old : List Nat),
      (runPartial ⟨some acc, some old⟩
          (l.map FSOp.copyEntry ++ [FSOp.removeBackup]) m).backup = some old ∨
      (runPartial ⟨some acc, some old⟩
          (l.map FSOp.copyEntry ++ [FSOp.removeBackup]) m).canonical = some (acc ++ l) := by
  induction l with
  | nil =>
    intro m acc old
    cases m with
    | zero => left; rfl
    | succ m =>
      right
      cases m <;> simp [runPartial, applyOp]
  | cons e l ih =>
    intro m acc old
    cases m with
    | zero => left; rfl
    | succ m =>
      simp only [List.map_cons, List.cons_append, runPartial, applyOp, Option.getD_some,
        List.append_eq]
      rcases ih m (acc ++ [e]) old with h | h
      · left; exact h
      · right
        rw [h]
        simp

/-- The invariant of the promotion phase (rename aside, re-create, copy,
remove backup), started on a canonical index `old` with any backup state:
at every intermediate point the old index survives at the canonical or the
backup location, or the new index is completely in place. -/
theorem tail_preserves (old newE : List Nat) (bk : Option (List Nat)) :
    ∀ n : Nat,
      (runPartial ⟨some old, bk⟩
          (FSOp.renameCanonicalToBackup :: FSOp.createCanonicalDir ::
            (newE.map FSOp.copyEntry ++ [FSOp.removeBackup])) n).canonical = some old ∨
      (runPartial ⟨some old, bk⟩
          (FSOp.renameCanonicalToBackup :: FSOp.createCanonicalDir ::
            (newE.map FSOp.copyEntry ++ [FSOp.removeBackup])) n).backup = some old ∨
      (runPartial ⟨some old, bk⟩
          (FSOp.renameCanonicalToBackup :: FSOp.createCanonicalDir ::
            (newE.map FSOp.copyEntry ++ [FSOp.removeBackup])) n).canonical = some newE := by
  intro n
  match n with
  | 0 => left; rfl
  | 1 => right; left; rfl
  | Nat.succ (Nat.succ m) =>
    simp only [runPartial, applyOp, Option.getD_none]
    rcases runPartial_copyFinal newE m [] old with h | h
    · right; left; exact h
    · right; right; simpa using h

/-- C2 counterexample: starting from a canonical index with entries `[7]`
and no backup, rebuilding towards entries `[1, 2]`: a failure right after
the first promotion step leaves the canonical location vacated (its contents
renamed to the backup path), and a failure in the middle of the per-file
copy leaves the canonical location holding a partial copy `[1]` — neither
the pre-rebuild contents `[7]` nor the new contents `[1, 2]` — so the
canonical location is vacated and then overwritten file by file (by
`fs::copy`, not a single rename) before the replacement is in place. -/
theorem claim_C2_counterexample :
    runPartial ⟨some [7], none⟩ (rebuildScript ⟨some [7], none⟩ [1, 2]) 1 =
        ⟨none, some [7]⟩ ∧
      runPartial ⟨some [7], none⟩ (rebuildScript ⟨some [7], none⟩ [1, 2]) 3 =
        ⟨some [1], some [7]⟩ ∧
      (⟨none, some [7]⟩ : IndexFS).canonical ≠ some [7] ∧
      (⟨some [1], some [7]⟩ : IndexFS).canonical ≠ some [7] ∧
      (⟨some [1], some [7]⟩ : IndexFS).canonical ≠ some [1, 2] := by
  refine ⟨by decide, by decide, by decide, by decide, by decide⟩

/-- C2 (amended): a fully successful rebuild always ends with the canonical
location holding exactly the new index and no backup left behind; and when a
canonical index exists before the rebuild, at every intermediate failure
point the pre-rebuild index survives in full at the canonical or at the
backup location, or the new index is already completely in place — but the
canonical location itself is vacated by the rename-aside and repopulated by
a per-file copy, so a failure between those points leaves the canonical
location missing or partial (searches consistent with the pre-rebuild set
require restoring the backup). -/
theorem claim_C2_rebuild :
    (∀ (fs : IndexFS) (newEntries : List Nat),
      rebuild_index fs newEntries = ⟨some newEntries, none⟩) ∧
    (∀ (bk : Option (List Nat)) (old newEntries : List Nat) (n : Nat),
      (runPartial ⟨some old, bk⟩ (rebuildScript ⟨some old, bk⟩ newEntries) n).canonical =
          some old ∨
      (runPartial ⟨some old, bk⟩ (rebuildScript ⟨some old, bk⟩ newEntries) n).backup =
          some old ∨
      (runPartial ⟨some old, bk⟩ (rebuildScript ⟨some old, bk⟩ newEntries) n).canonical =
          some newEntries) := by
  constructor
  · intro fs newEntries
    rcases fs with ⟨c, b⟩
    rcases c with _ | old <;> rcases b with _ | bv <;>
      simp only [rebuild_index, rebuildScript, Option.isSome_none, Option.isSome_some,
        Bool.false_eq_true, if_false, if_true, or_true, true_or, or_self,
        List.nil_append, List.append_nil, List.singleton_append, List.cons_append,
        runScript, List.foldl_cons, List.foldl_append, applyOp, Option.getD_none,
        Option.getD_some] <;>
      rw [show ∀ s l, List.foldl applyOp s (List.map FSOp.copyEntry l) =
        runScript s (l.map FSOp.copyEntry) from fun _ _ => rfl, runScript_copies] <;>
      simp [runScript, applyOp]
  · intro bk old newEntries n
    rcases bk with _ | bv
    · have hs : rebuildScript ⟨some old, none⟩ newEntries =
          FSOp.renameCanonicalToBackup :: FSOp.createCanonicalDir ::
            (newEntries.map FSOp.copyEntry ++ [FSOp.removeBackup]) := by
        simp [rebuildScript]
      rw [hs]
      exact tail_preserves old newEntries none n
    · have hs : rebuildScript ⟨some old, some bv⟩ newEntries =
          FSOp.removeBackup :: FSOp.renameCanonicalToBackup :: FSOp.createCanonicalDir ::
            (newEntries.map FSOp.copyEntry ++ [FSOp.removeBackup]) := by
        simp [rebuildScript]
      rw [hs]
      cases n with
      | zero => left; rfl
      | succ n =>
        simp only [runPartial, applyOp]
        exact tail_preserves old newEntries none n

/-- Witness for C6 at a concrete input. -/
theorem claim_C6_zettelkasten_order_witness :
    zettelCompareParts [ZettelComponent.Number 1]
      [ZettelComponent.Number 1, ZettelComponent.Letter 'a'] = Ordering.lt :=
  claim_C6_zettelkasten_order.2.2.2.1 _ _ ⟨[ZettelComponent.Letter 'a'], rfl⟩ (by decide)

end Notter
